import Mathlib

/-!
Verification development for mdcal (`src/mdcal.py`), a converter from a
markdown-like event listing to an iCal file and an HTML page.

Lines and strings are embedded as `List Char`.  Python's `str.strip`,
`str.split`, `str.replace`, `re` patterns and `datetime.strptime` are
translated to executable Lean functions over `List Char`; whitespace is
the ASCII whitespace set that Python's `str.strip` and `\s` use on the
ASCII range.

The two scanning loops of the source (`re.findall` inside `parse_tags`,
and the cursor loop of `parse_markdown`) advance over their input without
backtracking, so they are rendered as structural recursion on a step
counter bounded by the input length; a congruence lemma shows the counter
is irrelevant as long as it is at least the input length, which yields
unconditional step equations mirroring the source loops exactly.
-/

/-- The ASCII whitespace characters stripped by Python's `str.strip()` and
matched by the regex class `\s` (restricted to ASCII). -/
def isPySpace (c : Char) : Bool :=
  c = ' ' || c = '\t' || c = '\n' || c = '\x0d' || c = '\x0b' || c = '\x0c'

/-- Python `str.strip()`: remove leading and trailing whitespace. -/
def stripChars (l : List Char) : List Char :=
  ((l.dropWhile isPySpace).reverse.dropWhile isPySpace).reverse

/-- Python `not line.strip()`: the line is blank (only whitespace). -/
def isBlankLine (l : List Char) : Bool :=
  (stripChars l).isEmpty

/-- A character of the regex class `[a-zA-Z0-9_-]` used for tags. -/
def isTagChar (c : Char) : Bool :=
  c.isAlphanum || c = '-' || c = '_'

/-- Python `s.split(sep)` for a single-character separator: split at every
occurrence of `c`; always returns at least one (possibly empty) part. -/
def splitOnChar (c : Char) : List Char → List (List Char)
  | [] => [[]]
  | x :: xs =>
    match splitOnChar c xs with
    | [] => [[]]
    | p :: ps => if x = c then [] :: p :: ps else (x :: p) :: ps

/-- Python `text.replace(old, new)` for a single-character `old`. -/
def replaceChar (c : Char) (r : List Char) (l : List Char) : List Char :=
  l.flatMap (fun x => if x = c then r else [x])

/-- Shorthand turning a Lean string literal into the `List Char` embedding. -/
def pyStr (s : String) : List Char :=
  s.toList

/-- A calendar date, the part of Python's `datetime` this program uses
(`strptime('%d.%m.%Y')` leaves the time components at zero). -/
structure Date where
  year : Nat
  month : Nat
  day : Nat
deriving DecidableEq, Repr

/-- Gregorian leap-year rule, as used by Python's `datetime`. -/
def isLeapYear (y : Nat) : Bool :=
  (y % 4 = 0 && y % 100 != 0) || y % 400 = 0

/-- Number of days in a month of the proleptic Gregorian calendar
(Python `datetime`'s validation rule). -/
def daysInMonth (y m : Nat) : Nat :=
  if m = 2 then (if isLeapYear y then 29 else 28)
  else if m = 4 || m = 6 || m = 9 || m = 11 then 30
  else 31

/-- Decimal value of a digit string. -/
def digitsVal (l : List Char) : Nat :=
  l.foldl (fun a c => a * 10 + (c.toNat - ('0').toNat)) 0

/-- The day field of `strptime`'s `%d`: CPython compiles it to the regex
`3[01]|[12]\d|0[1-9]|[1-9]`, i.e. one or two digits, value 1..31, `00`
excluded. -/
def matchDay (l : List Char) : Bool :=
  l.all Char.isDigit && (l.length = 1 || l.length = 2) &&
    1 ≤ digitsVal l && digitsVal l ≤ 31

/-- The month field of `strptime`'s `%m`: regex `1[0-2]|0[1-9]|[1-9]`. -/
def matchMonth (l : List Char) : Bool :=
  l.all Char.isDigit && (l.length = 1 || l.length = 2) &&
    1 ≤ digitsVal l && digitsVal l ≤ 12

/-- The year field of `strptime`'s `%Y`: regex `\d\d\d\d`, exactly four
digits. -/
def matchYear (l : List Char) : Bool :=
  l.all Char.isDigit && l.length = 4

/-- CPython's `datetime.strptime(s, '%d.%m.%Y')`: the whole string must be
day `.` month `.` year with the field regexes above, and the resulting
numbers must form a valid calendar date (year at least `MINYEAR = 1`, day at
most the length of the month); on failure a `ValueError` is raised, embedded
as `none`.  Since the fields are digit-only and the separators are literal
dots, the regex decomposition is exactly the split of the string at every
`.`. -/
def strptimeDMY (s : List Char) : Option Date :=
  match splitOnChar '.' s with
  | [d, m, y] =>
    if matchDay d && matchMonth m && matchYear y then
      let dv := digitsVal d
      let mv := digitsVal m
      let yv := digitsVal y
      if 1 ≤ yv && dv ≤ daysInMonth yv mv then some ⟨yv, mv, dv⟩ else none
    else none
  | _ => none

/-- The function `parse_date` from `src/mdcal.py` (lines 44-61): strip the string; if it
contains a hyphen, `split('-')` (at every hyphen) and parse the first two
parts, stripped, with `strptime('%d.%m.%Y')`, yielding a range; otherwise
parse the whole string as a single date.  A `ValueError` from either
`strptime` call (the `DateFormatError` of the spec) is embedded as `none`. -/
def parse_date (l : List Char) : Option (Date × Option Date) :=
  let s := stripChars l
  if '-' ∈ s then
    match splitOnChar '-' s with
    | p0 :: p1 :: _ =>
      match strptimeDMY (stripChars p0), strptimeDMY (stripChars p1) with
      | some d0, some d1 => some (d0, some d1)
      | _, _ => none
    | _ => none
  else
    match strptimeDMY s with
    | some d => some (d, none)
    | none => none

/-- The predicate `is_heading` from `src/mdcal.py` (lines 26-29): the stripped line matches
`^#+\s`, i.e. one or more `#` followed by a whitespace character. -/
def is_heading (l : List Char) : Bool :=
  match stripChars l with
  | [] => false
  | c :: rest =>
    c = '#' &&
      (match rest.dropWhile (fun x => x = '#') with
       | [] => false
       | d :: _ => isPySpace d)

/-- The predicate `is_tag_line` from `src/mdcal.py` (lines 31-33): the line matches
`^#[a-zA-Z0-9_-]`. -/
def is_tag_line (l : List Char) : Bool :=
  match l with
  | '#' :: c :: _ => isTagChar c
  | _ => false

/-- The scanning loop of `re.findall(r'#([a-zA-Z0-9_-]+)', line)`: at a `#`,
the maximal nonempty run of tag characters after it is one match, and
scanning resumes right after the run; fuelled by a step counter, which is
irrelevant once it reaches the line length (`parseTagsGo_eq`). -/
def parseTagsGo : Nat → List Char → List (List Char)
  | _, [] => []
  | 0, _ :: _ => []
  | f + 1, c :: cs =>
    if c = '#' then
      let run := cs.takeWhile isTagChar
      if run.isEmpty then parseTagsGo f cs
      else run :: parseTagsGo f (cs.drop run.length)
    else parseTagsGo f cs

/-- The function `parse_tags` from `src/mdcal.py` (lines 36-41):
`re.findall(r'#([a-zA-Z0-9_-]+)', line)` — every maximal nonempty run of
tag characters directly following a `#`, scanned left to right without
overlap. -/
def parse_tags (l : List Char) : List (List Char) :=
  parseTagsGo l.length l

/-- The `Event` class of `src/mdcal.py` (lines 12-23). -/
structure Event where
  title : List Char
  start_date : Date
  end_date : Option Date
  description : List Char
  link : List Char
  tags : List (List Char)
deriving DecidableEq, Repr

/-- The accumulator of the body-classification loop of `parse_markdown`
(`src/mdcal.py` lines 93-113): `tags`, `description`, `link`. -/
structure BodyAcc where
  tags : List (List Char)
  description : List Char
  link : List Char
deriving DecidableEq, Repr

/-- Does the line start with `http://` or `https://`? -/
def isHttpLine (l : List Char) : Bool :=
  (pyStr ("http://")).isPrefixOf l || (pyStr ("https://")).isPrefixOf l

/-- One iteration of the classification loop of `parse_markdown`
(`src/mdcal.py` lines 104-113): link lines (last one wins), then tag lines,
then nonempty lines appended to the description joined by a newline. -/
def collectStep (b : BodyAcc) (cl : List Char) : BodyAcc :=
  if isHttpLine cl then
    { b with link := cl }
  else if !cl.isEmpty && is_tag_line cl then
    { b with tags := b.tags ++ parse_tags cl }
  else if !cl.isEmpty then
    { b with description :=
        if !b.description.isEmpty then b.description ++ '\n' :: cl
        else cl }
  else b

/-- The whole classification loop over the collected (stripped) body lines. -/
def collectBody (ls : List (List Char)) : BodyAcc :=
  ls.foldl collectStep ⟨[], [], []⟩

/-- The event title taken from a heading line:
`line.strip().lstrip('#').strip()` (`src/mdcal.py` line 78). -/
def headingTitle (l : List Char) : List Char :=
  stripChars ((stripChars l).dropWhile (fun c => c = '#'))

/-- Build the `Event` of one extraction cycle (`src/mdcal.py` line 115):
the description is stripped at construction. -/
def mkEvent (title : List Char) (sd : Date) (ed : Option Date)
    (b : BodyAcc) : Event :=
  { title := title, start_date := sd, end_date := ed,
    description := stripChars b.description, link := b.link, tags := b.tags }

/-- The cursor loop of `parse_markdown` (`src/mdcal.py` lines 73-118) on the
remaining lines: skip non-heading lines; at a heading, skip blank lines (end
of input here drops the pending heading and stops), hand the next line to
`parse_date` (failure aborts the whole run, embedded as `none`), collect
stripped body lines up to the next heading, classify them and emit the
event.  Fuelled by a step counter, irrelevant once it reaches the number of
remaining lines (`parseMdGo_eq`). -/
def parseMdGo : Nat → List (List Char) → Option (List Event)
  | _, [] => some []
  | 0, _ :: _ => some []
  | f + 1, l :: ls =>
    if is_heading l then
      match ls.dropWhile isBlankLine with
      | [] => some []
      | dl :: ls2 =>
        match parse_date dl with
        | none => none
        | some (sd, ed) =>
          match parseMdGo f (ls2.dropWhile (fun x => !is_heading x)) with
          | none => none
          | some evs =>
            some (mkEvent (headingTitle l) sd ed
                    (collectBody ((ls2.takeWhile (fun x => !is_heading x)).map
                      stripChars)) :: evs)
    else parseMdGo f ls

/-- The function `parse_markdown` from `src/mdcal.py` (lines 64-120), on the list of
lines of the input (the file content split at `\n`). -/
def parse_markdown (ls : List (List Char)) : Option (List Event) :=
  parseMdGo ls.length ls

/-- Python `datetime.strftime` zero-padded numeric field of width `w`. -/
def padZeros (w n : Nat) : List Char :=
  List.replicate (w - (Nat.toDigits 10 n).length) '0' ++ Nat.toDigits 10 n

/-- Python `strftime('%Y%m%d')` on a date. -/
def fmtYYYYMMDD (d : Date) : List Char :=
  padZeros 4 d.year ++ padZeros 2 d.month ++ padZeros 2 d.day

/-- Python `strftime('%d.%m.%Y')` on a date (used by the HTML renderer). -/
def fmtDDMMYYYY (d : Date) : List Char :=
  padZeros 2 d.day ++ '.' :: padZeros 2 d.month ++ '.' :: padZeros 4 d.year

/-- Python `date + timedelta(days=1)` on valid calendar dates: increment the day,
rolling over month and year ends. -/
def addOneDay (d : Date) : Date :=
  if d.day < daysInMonth d.year d.month then ⟨d.year, d.month, d.day + 1⟩
  else if d.month < 12 then ⟨d.year, d.month + 1, 1⟩
  else ⟨d.year + 1, 1, 1⟩

/-- The function `escape_ical_text` from `src/mdcal.py` (lines 189-195): replace
backslash by double backslash, then comma, then semicolon by their escaped
forms, then a real newline by the two characters backslash-n, in this
order. -/
def escape_ical_text (t : List Char) : List Char :=
  replaceChar '\n' (pyStr ("\\n"))
    (replaceChar ';' (pyStr ("\\;"))
      (replaceChar ',' (pyStr ("\\,"))
        (replaceChar '\\' (pyStr ("\\\\")) t)))

/-- The function `escape_html` from `src/mdcal.py` (lines 448-455): replace `&`, `<`,
`>`, `"`, `'` by their entities, ampersand first. -/
def escape_html (t : List Char) : List Char :=
  replaceChar '\'' (pyStr ("&#39;"))
    (replaceChar '"' (pyStr ("&quot;"))
      (replaceChar '>' (pyStr ("&gt;"))
        (replaceChar '<' (pyStr ("&lt;"))
          (replaceChar '&' (pyStr ("&amp;")) t))))

/-- Python's `datetime` comparison restricted to dates: lexicographic on
(year, month, day); this is the key order of `sorted(events, key=lambda e:
e.start_date)` (all times are midnight). -/
def dateLe (a b : Date) : Prop :=
  a.year < b.year ∨
    (a.year = b.year ∧
      (a.month < b.month ∨ (a.month = b.month ∧ a.day ≤ b.day)))

instance : DecidableRel dateLe := fun a b => by
  unfold dateLe
  infer_instance

/-- The sort key comparison of `generate_ical`/`generate_html`. -/
def startLe (a b : Event) : Prop :=
  dateLe a.start_date b.start_date

instance : DecidableRel startLe := fun a b => by
  unfold startLe
  infer_instance

instance : IsTotal Event startLe :=
  ⟨fun a b => by unfold startLe dateLe; omega⟩

instance : IsTrans Event startLe :=
  ⟨fun a b c hab hbc => by unfold startLe dateLe at *; omega⟩

/-- Python `sorted(events, key=lambda e: e.start_date)` (`src/mdcal.py` lines 133
and 201).  Python's `sorted` is the stable ascending sort by the key; a
stable sort for a total preorder is unique, so insertion sort (which
inserts each earlier element in front of the later elements it does not
exceed) produces exactly Python's result. -/
def sortEventsByStart (evs : List Event) : List Event :=
  List.insertionSort startLe evs

/-- The five fixed header lines of the iCal output
(`src/mdcal.py` lines 126-130). -/
def icalHeaderLines : List (List Char) :=
  [pyStr ("BEGIN:VCALENDAR"), pyStr ("VERSION:2.0"),
   pyStr ("PRODID:-//mdcal//mdcal//EN"), pyStr ("CALSCALE:GREGORIAN"),
   pyStr ("METHOD:PUBLISH")]

/-- The per-event block of `generate_ical` (`src/mdcal.py` lines 135-181):
UID, DTSTART, DTEND (exclusive, one day past the last included day),
SUMMARY, optional CATEGORIES, optional DESCRIPTION, optional URL, DTSTAMP.
`ts` stands for the `DTSTAMP` value `datetime.now(timezone.utc)` formatted;
it is passed in because the embedding has no clock. -/
def eventIcalBlock (e : Event) (ts : List Char) : List (List Char) :=
  [pyStr ("BEGIN:VEVENT"),
   pyStr ("UID:") ++ fmtYYYYMMDD e.start_date ++
     '-' :: replaceChar ' ' ['-'] e.title ++ pyStr ("@mdcal")]
  ++ (match e.end_date with
      | some ed =>
        [pyStr ("DTSTART;VALUE=DATE:") ++ fmtYYYYMMDD e.start_date,
         pyStr ("DTEND;VALUE=DATE:") ++ fmtYYYYMMDD (addOneDay ed)]
      | none =>
        [pyStr ("DTSTART;VALUE=DATE:") ++ fmtYYYYMMDD e.start_date,
         pyStr ("DTEND;VALUE=DATE:") ++ fmtYYYYMMDD (addOneDay e.start_date)])
  ++ [pyStr ("SUMMARY:") ++ escape_ical_text e.title]
  ++ (if !e.tags.isEmpty then
        [pyStr ("CATEGORIES:") ++
          List.intercalate [','] (e.tags.map escape_ical_text)]
      else [])
  ++ (let parts :=
        (if !e.description.isEmpty then [e.description] else []) ++
        (if !e.link.isEmpty then [pyStr ("Link: ") ++ e.link] else [])
      if !parts.isEmpty then
        [pyStr ("DESCRIPTION:") ++
          escape_ical_text (List.intercalate (pyStr ("\\n")) parts)]
      else [])
  ++ (if !e.link.isEmpty then [pyStr ("URL:") ++ e.link] else [])
  ++ [pyStr ("DTSTAMP:") ++ ts, pyStr ("END:VEVENT")]

/-- The function `generate_ical` from `src/mdcal.py` (lines 123-186) as the list of
output lines (the file is their `'\n'.join`): header, one block per event
in stably sorted order, footer. -/
def generate_ical (evs : List Event) (ts : List Char) : List (List Char) :=
  icalHeaderLines ++
    (sortEventsByStart evs).flatMap (fun e => eventIcalBlock e ts) ++
    [pyStr ("END:VCALENDAR")]

/-- One tag chip of an event card (`src/mdcal.py` lines 229-232). -/
def tagSpanHtml (tag : List Char) : List Char :=
  pyStr ("                <span class=\"tag\" onclick=\"filterByTag('") ++
    escape_html tag ++ pyStr ("')\">#") ++ escape_html tag ++ pyStr ("</span>")

/-- The `data-tags` attribute value (`src/mdcal.py` line 223):
`','.join(event.tags) if event.tags else ''`. -/
def tagsAttr (e : Event) : List Char :=
  if !e.tags.isEmpty then List.intercalate [','] e.tags else []

/-- The date string on a card (`src/mdcal.py` line 224): `DD.MM.YYYY` or
`DD.MM.YYYY - DD.MM.YYYY`. -/
def dateStrHtml (e : Event) : List Char :=
  match e.end_date with
  | some ed => fmtDDMMYYYY e.start_date ++ pyStr (" - ") ++ fmtDDMMYYYY ed
  | none => fmtDDMMYYYY e.start_date

/-- The tag-chip block of a card (`src/mdcal.py` lines 227-235). -/
def eventTagsHtml (e : Event) : List Char :=
  if !e.tags.isEmpty then
    pyStr ("            <div class=\"event-tags\">\n") ++
      List.intercalate ['\n'] (e.tags.map tagSpanHtml) ++
      pyStr ("\n            </div>")
  else []

/-- One event card of `generate_html` (`src/mdcal.py` lines 237-248). -/
def eventCardHtml (e : Event) : List Char :=
  pyStr ("    <div class=\"event\" data-tags=\"") ++
    escape_html (tagsAttr e) ++ pyStr ("\">\n        <div class=\"event-title\">") ++
    escape_html e.title ++
    pyStr ("</div>\n        <div class=\"event-date-tags\">\n            <span class=\"event-date\">📅 ") ++
    escape_html (dateStrHtml e) ++ pyStr ("</span>\n") ++
    eventTagsHtml e ++ pyStr ("\n        </div>\n") ++
    (if !e.description.isEmpty then
      pyStr ("        <div class=\"event-description\">") ++
        escape_html e.description ++ pyStr ("</div>")
     else []) ++ pyStr ("\n") ++
    (if !e.link.isEmpty then
      pyStr ("        <div class=\"event-link\">🔗 <a href=\"") ++
        escape_html e.link ++ pyStr ("\" target=\"_blank\">") ++
        escape_html e.link ++ pyStr ("</a></div>")
     else []) ++ pyStr ("\n    </div>")

/-- The event-card section of `generate_html` (`src/mdcal.py` lines
200-201 and 220-251): one card per event, in stably sorted order.  (The
surrounding fixed HTML scaffold, styles and script are not modelled.) -/
def generate_html_cards (evs : List Event) : List (List Char) :=
  (sortEventsByStart evs).map eventCardHtml

/-- The cursor value after one iteration of the outer `while` loop of
`parse_markdown` (`src/mdcal.py` lines 73-118) starting at index `i`:
a non-heading line advances by one; a heading advances past the blank
skip (line 82), and either the loop breaks at end of input (cursor at the
length) or the date line is consumed and the body scan stops at the next
heading or end of input without consuming the stopping line. -/
def stepIndex (ls : List (List Char)) (i : Nat) : Nat :=
  if is_heading (ls.getD i []) then
    if ls.length ≤ i + 1 + ((ls.drop (i + 1)).takeWhile isBlankLine).length then
      ls.length
    else
      i + 1 + ((ls.drop (i + 1)).takeWhile isBlankLine).length + 1 +
        ((ls.drop (i + 1 + ((ls.drop (i + 1)).takeWhile isBlankLine).length + 1)).takeWhile
          (fun x => !is_heading x)).length
  else i + 1

/-- The last element of a list, or `d` if there is none: the value of a
variable overwritten by each matching line in turn. -/
def lastOr (d : α) : List α → α
  | [] => d
  | x :: xs => lastOr x xs

/-- The link lines of a body, in order (claim C5's first category). -/
def linkLines (ls : List (List Char)) : List (List Char) :=
  ls.filter isHttpLine

/-- The tag lines of a body: not link lines, nonempty tag lines (claim C5's
second category, by first match). -/
def tagLinesOf (ls : List (List Char)) : List (List Char) :=
  ls.filter (fun l => !isHttpLine l && (!l.isEmpty && is_tag_line l))

/-- The description lines of a body: everything else that is nonempty
(claim C5's third category, by first match). -/
def descLinesOf (ls : List (List Char)) : List (List Char) :=
  ls.filter (fun l => !isHttpLine l && !(!l.isEmpty && is_tag_line l) && !l.isEmpty)

/-- Joining lines with a single newline between consecutive lines. -/
def joinWithNewline : List (List Char) → List Char
  | [] => []
  | x :: xs => x ++ xs.flatMap (fun y => '\n' :: y)

/-- The description accumulator of the classification loop: each line is
appended, preceded by a newline when the accumulator is nonempty. -/
def pyJoinDesc : List Char → List (List Char) → List Char
  | acc, [] => acc
  | acc, x :: xs => pyJoinDesc (if !acc.isEmpty then acc ++ '\n' :: x else x) xs

/-- Reassembling the parts of a split with the separator between them. -/
def unsplitChar (c : Char) : List (List Char) → List Char
  | [] => []
  | [p] => p
  | p :: ps => p ++ c :: unsplitChar c ps

/-- Claim C1's acceptance pattern taken literally from the spec words: a
two-digit day, a dot, a two-digit month, a dot, and a four-digit year. -/
def strictDMY (s : List Char) : Bool :=
  match s with
  | [d1, d2, '.', m1, m2, '.', y1, y2, y3, y4] =>
    d1.isDigit && d2.isDigit && m1.isDigit && m2.isDigit &&
      y1.isDigit && y2.isDigit && y3.isDigit && y4.isDigit
  | _ => false

/-- The amended single-date acceptance condition (claim C1 as corrected):
a day of one or two digits with value 1..31, a dot, a month of one or two
digits with value 1..12, a dot, a year of exactly four digits with value at
least 1, and the day valid for that month and year. -/
def flexibleDMY (s : List Char) : Prop :=
  ∃ d m y : List Char,
    s = d ++ '.' :: (m ++ '.' :: y) ∧
    (∀ c ∈ d, c.isDigit = true) ∧ (∀ c ∈ m, c.isDigit = true) ∧
    (∀ c ∈ y, c.isDigit = true) ∧
    (d.length = 1 ∨ d.length = 2) ∧ (m.length = 1 ∨ m.length = 2) ∧
    y.length = 4 ∧
    1 ≤ digitsVal d ∧ digitsVal d ≤ 31 ∧ 1 ≤ digitsVal m ∧ digitsVal m ≤ 12 ∧
    1 ≤ digitsVal y ∧ digitsVal d ≤ daysInMonth (digitsVal y) (digitsVal m)

/-- The text before the first hyphen of a trimmed date line. -/
def firstHyphenFrag (t : List Char) : List Char :=
  t.takeWhile (fun c => c != '-')

/-- The text strictly between the first hyphen and the second hyphen (or
the end of the line): the second element of Python's `split('-')`. -/
def secondHyphenFrag (t : List Char) : List Char :=
  ((t.dropWhile (fun c => c != '-')).tail).takeWhile (fun c => c != '-')

/-- A heading is counted by claim C3 when, among the lines after it up to
(and not including) the next heading line or the end of input, some
non-blank line parses as a date. -/
def hasDateBeforeNextHeading (ls : List (List Char)) : Bool :=
  (ls.takeWhile (fun x => !is_heading x)).any
    (fun x => !isBlankLine x && (parse_date x).isSome)

/-- The number of heading lines that claim C3 counts. -/
def countSpecHeadings : List (List Char) → Nat
  | [] => 0
  | l :: ls =>
    (if is_heading l && hasDateBeforeNextHeading ls then 1 else 0) +
      countSpecHeadings ls

/-- The heading titles that claim C3 counts, in source order. -/
def titlesSpec : List (List Char) → List (List Char)
  | [] => []
  | l :: ls =>
    (if is_heading l && hasDateBeforeNextHeading ls then [headingTitle l]
     else []) ++ titlesSpec ls

theorem parseTagsGo_eq :
    ∀ f g l, l.length ≤ f → l.length ≤ g → parseTagsGo f l = parseTagsGo g l := by
  intro f
  induction f with
  | zero =>
    intro g l hf _
    rcases l with _ | ⟨c, cs⟩
    · cases g <;> rfl
    · simp at hf
  | succ f ih =>
    intro g l hf hg
    rcases l with _ | ⟨c, cs⟩
    · cases g <;> rfl
    · rcases g with _ | g
      · simp at hg
      · simp only [List.length_cons, Nat.add_le_add_iff_right] at hf hg
        simp only [parseTagsGo]
        have hd : (cs.drop (cs.takeWhile isTagChar).length).length ≤ cs.length := by
          rw [List.length_drop]
          omega
        split
        · split
          · exact ih g cs hf hg
          · rw [ih g (cs.drop (cs.takeWhile isTagChar).length)
              (Nat.le_trans hd hf) (Nat.le_trans hd hg)]
        · exact ih g cs hf hg

/-- Unconditional step equation for `parse_tags`, mirroring one step of the
`findall` scan. -/
theorem parse_tags_cons (c : Char) (cs : List Char) :
    parse_tags (c :: cs) =
      if c = '#' then
        if (cs.takeWhile isTagChar).isEmpty then parse_tags cs
        else cs.takeWhile isTagChar ::
          parse_tags (cs.drop (cs.takeWhile isTagChar).length)
      else parse_tags cs := by
  have hd : (cs.drop (cs.takeWhile isTagChar).length).length ≤ cs.length := by
    rw [List.length_drop]; omega
  show parseTagsGo (cs.length + 1) (c :: cs) = _
  simp only [parseTagsGo]
  rw [parseTagsGo_eq cs.length cs.length cs le_rfl le_rfl]
  rw [parseTagsGo_eq cs.length (cs.drop (cs.takeWhile isTagChar).length).length
    (cs.drop (cs.takeWhile isTagChar).length) hd le_rfl]
  rfl

example : parse_tags (pyStr ("#space #rocket")) =
    [pyStr ("space"), pyStr ("rocket")] := by decide

theorem length_dropWhile_le (p : α → Bool) (l : List α) :
    (l.dropWhile p).length ≤ l.length := by
  induction l with
  | nil => simp [List.dropWhile]
  | cons x xs ih =>
    simp only [List.dropWhile]
    split
    · exact Nat.le_succ_of_le ih
    · simp

theorem parseMdGo_eq :
    ∀ f g ls, ls.length ≤ f → ls.length ≤ g → parseMdGo f ls = parseMdGo g ls := by
  intro f
  induction f with
  | zero =>
    intro g l hf _
    rcases l with _ | ⟨x, ls⟩
    · cases g <;> rfl
    · simp at hf
  | succ f ih =>
    intro g l hf hg
    rcases l with _ | ⟨x, ls⟩
    · cases g <;> rfl
    · rcases g with _ | g
      · simp at hg
      · simp only [List.length_cons, Nat.add_le_add_iff_right] at hf hg
        simp only [parseMdGo]
        split
        · split
          · rfl
          · rename_i dl ls2 hdrop
            have h1 : ls2.length < ls.length := by
              have := length_dropWhile_le isBlankLine ls
              rw [hdrop] at this
              simp only [List.length_cons] at this
              omega
            have h2 : (ls2.dropWhile (fun y => !is_heading y)).length ≤ ls2.length :=
              length_dropWhile_le _ ls2
            rw [ih g (ls2.dropWhile (fun y => !is_heading y))
              (by omega) (by omega)]
        · exact ih g ls hf hg

/-- Unconditional step equation for `parse_markdown`, mirroring one
iteration of the cursor loop of `src/mdcal.py` lines 73-118. -/
theorem parse_markdown_cons (l : List Char) (ls : List (List Char)) :
    parse_markdown (l :: ls) =
      if is_heading l then
        match ls.dropWhile isBlankLine with
        | [] => some []
        | dl :: ls2 =>
          match parse_date dl with
          | none => none
          | some (sd, ed) =>
            match parse_markdown (ls2.dropWhile (fun x => !is_heading x)) with
            | none => none
            | some evs =>
              some (mkEvent (headingTitle l) sd ed
                      (collectBody ((ls2.takeWhile (fun x => !is_heading x)).map
                        stripChars)) :: evs)
      else parse_markdown ls := by
  show parseMdGo (ls.length + 1) (l :: ls) = _
  simp only [parseMdGo]
  rw [parseMdGo_eq ls.length ls.length ls le_rfl le_rfl]
  by_cases hh : is_heading l
  · simp only [hh, if_true]
    rcases hdrop : ls.dropWhile isBlankLine with _ | ⟨dl, ls2⟩
    · rfl
    · have h1 : ls2.length < ls.length := by
        have := length_dropWhile_le isBlankLine ls
        rw [hdrop] at this
        simp only [List.length_cons] at this
        omega
      have h2 : (ls2.dropWhile (fun x => !is_heading x)).length ≤ ls2.length :=
        length_dropWhile_le _ ls2
      dsimp only
      rw [parseMdGo_eq ls.length (ls2.dropWhile (fun x => !is_heading x)).length
        (ls2.dropWhile (fun x => !is_heading x)) (by omega) le_rfl]
      rfl
  · simp only [hh, Bool.false_eq_true, if_false]
    rfl

example : parse_markdown [pyStr ("# Launch"), pyStr ("01.03.2024"),
    pyStr ("Join us"), pyStr ("#space #rocket"), pyStr ("https://example.com")] =
    some [{ title := pyStr ("Launch"), start_date := ⟨2024, 3, 1⟩,
            end_date := none, description := pyStr ("Join us"),
            link := pyStr ("https://example.com"),
            tags := [pyStr ("space"), pyStr ("rocket")] }] := by decide

/-- C4: in every rendered event block, DTSTART is the start date formatted
`YYYYMMDD` and DTEND is one day after the end date if present, else one day
after the start date, formatted `YYYYMMDD`: the exclusive-end convention,
regardless of the gap between start and end. -/
theorem generate_ical_dtstart_dtend (e : Event) (ts : List Char) :
    ((eventIcalBlock e ts).drop 2).head? =
      some (pyStr ("DTSTART;VALUE=DATE:") ++ fmtYYYYMMDD e.start_date) ∧
    ((eventIcalBlock e ts).drop 3).head? =
      some (pyStr ("DTEND;VALUE=DATE:") ++
        fmtYYYYMMDD (addOneDay (e.end_date.getD e.start_date))) := by
  rcases e with ⟨t, sd, ed, d, lk, tg⟩
  cases ed <;> exact ⟨rfl, rfl⟩

/-- C7: the iCal escaping replaces backslash, then comma, then semicolon,
then newline, in this order; it is the function applied to SUMMARY (and to
CATEGORIES and DESCRIPTION in `eventIcalBlock`), and the title `A, B; C`
renders as `A\, B\; C`. -/
theorem escape_ical_replacement_order (e : Event) (ts t : List Char) :
    escape_ical_text t =
      replaceChar '\n' (pyStr ("\\n"))
        (replaceChar ';' (pyStr ("\\;"))
          (replaceChar ',' (pyStr ("\\,"))
            (replaceChar '\\' (pyStr ("\\\\")) t))) ∧
    ((eventIcalBlock e ts).drop 4).head? =
      some (pyStr ("SUMMARY:") ++ escape_ical_text e.title) ∧
    escape_ical_text (pyStr ("A, B; C")) = pyStr ("A\\, B\\; C") := by
  refine ⟨rfl, ?_, by decide⟩
  rcases e with ⟨t', sd, ed, d, lk, tg⟩
  cases ed <;> rfl

/-- After one outer-loop iteration the cursor either moved strictly forward
or the loop broke at the end of the input. -/
theorem stepIndex_progress (ls : List (List Char)) (i : Nat) :
    i + 1 ≤ stepIndex ls i ∨ stepIndex ls i = ls.length := by
  unfold stepIndex
  split
  · split
    · right
      rfl
    · left
      omega
  · left
    omega

theorem stepIndex_iterate_ge (ls : List (List Char)) :
    ∀ k i, ls.length ≤ i + k → ls.length ≤ (stepIndex ls)^[k] i := by
  intro k
  induction k with
  | zero =>
    intro i h
    simpa using h
  | succ k ih =>
    intro i h
    rw [Function.iterate_succ_apply]
    rcases stepIndex_progress ls i with h1 | h1 <;> exact ih _ (by omega)

/-- C10: the extraction cursor moves strictly forward at every iteration of
the outer loop (in particular it never decreases, and the heading that stops
body collection is re-examined without moving backward), so iterating the
loop at most `length` times reaches the end of the input: a single pass. -/
theorem cursor_monotone (ls : List (List Char)) (i : Nat) (hi : i < ls.length) :
    i < stepIndex ls i ∧ ls.length ≤ (stepIndex ls)^[ls.length] 0 := by
  constructor
  · unfold stepIndex
    split
    · split
      · omega
      · omega
    · omega
  · exact stepIndex_iterate_ge ls ls.length 0 (by omega)

theorem cursor_monotone_witness :
    0 < [pyStr ("# A"), pyStr ("01.03.2024")].length ∧
      0 < stepIndex [pyStr ("# A"), pyStr ("01.03.2024")] 0 ∧
      [pyStr ("# A"), pyStr ("01.03.2024")].length ≤
        (stepIndex [pyStr ("# A"), pyStr ("01.03.2024")])^[2] 0 := by
  refine ⟨by decide, ?_⟩
  have h := cursor_monotone [pyStr ("# A"), pyStr ("01.03.2024")] 0 (by decide)
  exact h

theorem dateLe_refl (d : Date) : dateLe d d := by
  unfold dateLe
  omega

theorem filter_orderedInsert_pos (k : Date) (a : Event) (ha : a.start_date = k) :
    ∀ l : List Event,
      (List.orderedInsert startLe a l).filter (fun e => decide (e.start_date = k)) =
        a :: l.filter (fun e => decide (e.start_date = k)) := by
  intro l
  induction l with
  | nil => simp [List.orderedInsert, ha]
  | cons b bs ih =>
    simp only [List.orderedInsert]
    by_cases h : startLe a b
    · rw [if_pos h]
      simp [List.filter_cons, ha]
    · rw [if_neg h]
      have hb : ¬ b.start_date = k := by
        intro he
        apply h
        unfold startLe
        rw [he, ← ha]
        exact dateLe_refl _
      simp [List.filter_cons, hb, ih]

theorem filter_orderedInsert_neg (k : Date) (a : Event) (ha : ¬ a.start_date = k) :
    ∀ l : List Event,
      (List.orderedInsert startLe a l).filter (fun e => decide (e.start_date = k)) =
        l.filter (fun e => decide (e.start_date = k)) := by
  intro l
  induction l with
  | nil => simp [List.orderedInsert, ha]
  | cons b bs ih =>
    simp only [List.orderedInsert]
    by_cases h : startLe a b
    · rw [if_pos h]
      simp [List.filter_cons, ha]
    · rw [if_neg h]
      simp [List.filter_cons, ih]

theorem sortEvents_stable_filter (k : Date) :
    ∀ evs : List Event,
      (sortEventsByStart evs).filter (fun e => decide (e.start_date = k)) =
        evs.filter (fun e => decide (e.start_date = k)) := by
  intro evs
  induction evs with
  | nil => rfl
  | cons a l ih =>
    unfold sortEventsByStart at ih ⊢
    show (List.orderedInsert startLe a (List.insertionSort startLe l)).filter _ = _
    by_cases ha : a.start_date = k
    · rw [filter_orderedInsert_pos k a ha, ih]
      simp [List.filter_cons, ha]
    · rw [filter_orderedInsert_neg k a ha, ih]
      simp [List.filter_cons, ha]

/-- C8: both renderers emit the events in the order `sortEventsByStart`,
which is sorted ascending by start date, and stable: for every start date,
the events carrying it appear in the same relative order as in the
extracted sequence. -/
theorem renderers_sorted_stable (evs : List Event) (ts : List Char) :
    generate_ical evs ts =
      icalHeaderLines ++
        (sortEventsByStart evs).flatMap (fun e => eventIcalBlock e ts) ++
        [pyStr ("END:VCALENDAR")] ∧
    generate_html_cards evs = (sortEventsByStart evs).map eventCardHtml ∧
    List.Sorted startLe (sortEventsByStart evs) ∧
    ∀ k : Date,
      (sortEventsByStart evs).filter (fun e => decide (e.start_date = k)) =
        evs.filter (fun e => decide (e.start_date = k)) :=
  ⟨rfl, rfl, List.sorted_insertionSort startLe evs,
    fun k => sortEvents_stable_filter k evs⟩

theorem collectStep_http (b : BodyAcc) {cl : List Char}
    (h : isHttpLine cl = true) : collectStep b cl = { b with link := cl } := by
  unfold collectStep
  rw [if_pos h]

theorem collectStep_tag (b : BodyAcc) {cl : List Char}
    (h1 : isHttpLine cl = false) (h2 : (!cl.isEmpty && is_tag_line cl) = true) :
    collectStep b cl = { b with tags := b.tags ++ parse_tags cl } := by
  unfold collectStep
  rw [if_neg (by simp [h1]), if_pos h2]

theorem collectStep_desc (b : BodyAcc) {cl : List Char}
    (h1 : isHttpLine cl = false) (h2 : (!cl.isEmpty && is_tag_line cl) = false)
    (h3 : (!cl.isEmpty) = true) :
    collectStep b cl =
      { b with description :=
          if !b.description.isEmpty then b.description ++ '\n' :: cl else cl } := by
  unfold collectStep
  rw [if_neg (by simp [h1]), if_neg (by simp [h2]), if_pos h3]

theorem collectStep_blank (b : BodyAcc) {cl : List Char}
    (h1 : isHttpLine cl = false) (h2 : (!cl.isEmpty && is_tag_line cl) = false)
    (h3 : (!cl.isEmpty) = false) : collectStep b cl = b := by
  unfold collectStep
  rw [if_neg (by simp [h1]), if_neg (by simp [h2]), if_neg (by simp [h3])]

theorem collect_foldl (ls : List (List Char)) : ∀ b : BodyAcc,
    ls.foldl collectStep b =
      { tags := b.tags ++ (tagLinesOf ls).flatMap parse_tags,
        description := pyJoinDesc b.description (descLinesOf ls),
        link := lastOr b.link (linkLines ls) } := by
  induction ls with
  | nil =>
    intro b
    simp [tagLinesOf, descLinesOf, linkLines, pyJoinDesc, lastOr]
  | cons x xs ih =>
    intro b
    rw [List.foldl_cons, ih (collectStep b x)]
    unfold tagLinesOf descLinesOf linkLines
    rcases h1 : isHttpLine x with _ | _
    · rcases h2 : (!x.isEmpty && is_tag_line x) with _ | _
      · rcases h3 : (!x.isEmpty) with _ | _
        · have hE : x.isEmpty = true := by
            rcases he : x.isEmpty with _ | _
            · rw [he] at h3
              simp at h3
            · rfl
          rw [collectStep_blank b h1 h2 h3]
          simp [List.filter_cons, h1, hE]
        · have hE : x.isEmpty = false := by
            rcases he : x.isEmpty with _ | _
            · rfl
            · rw [he] at h3
              simp at h3
          have hT : is_tag_line x = false := by
            rcases htl : is_tag_line x with _ | _
            · rfl
            · rw [htl, h3] at h2
              simp at h2
          rw [collectStep_desc b h1 h2 h3]
          simp [List.filter_cons, h1, hE, hT, pyJoinDesc]
      · have h2c : (!x.isEmpty) = true ∧ is_tag_line x = true := by
          simpa using h2
        have hne : ¬ x = [] := by
          intro hx0
          rw [hx0] at h2c
          simp at h2c
        rw [collectStep_tag b h1 h2]
        simp [List.filter_cons, h1, h2c.1, h2c.2, hne, List.flatMap_cons,
          List.append_assoc]
    · rw [collectStep_http b h1]
      simp [List.filter_cons, h1, lastOr]

theorem pyJoinDesc_ne_nil (xs : List (List Char)) :
    ∀ acc : List Char, acc ≠ [] →
      pyJoinDesc acc xs = acc ++ xs.flatMap (fun y => '\n' :: y) := by
  induction xs with
  | nil =>
    intro acc _
    simp [pyJoinDesc]
  | cons x xs ih =>
    intro acc hacc
    have he : (!acc.isEmpty) = true := by
      simp [hacc]
    simp only [pyJoinDesc, he, if_true]
    rw [ih (acc ++ '\n' :: x) (by simp)]
    simp

theorem pyJoinDesc_nil_eq_join (L : List (List Char)) (hL : ∀ x ∈ L, x ≠ []) :
    pyJoinDesc [] L = joinWithNewline L := by
  cases L with
  | nil => rfl
  | cons x xs =>
    show pyJoinDesc (if !(List.nil (α := Char)).isEmpty then [] ++ '\n' :: x else x) xs = _
    simp only [List.isEmpty_nil, Bool.not_true, Bool.false_eq_true, if_false]
    rw [pyJoinDesc_ne_nil xs x (hL x (List.mem_cons_self x xs))]
    rfl

/-- C5: the classification loop assigns each (trimmed) body line to exactly
one category by first match — link lines (the last one wins), then tag
lines (tags appended in order), then nonempty lines joined into the
description with single newlines, empty lines contributing nothing — and
the event's final description is the trimmed join. -/
theorem body_classification (ls : List (List Char)) (t : List Char)
    (sd : Date) (ed : Option Date) :
    collectBody ls =
      { tags := (tagLinesOf ls).flatMap parse_tags,
        description := joinWithNewline (descLinesOf ls),
        link := lastOr [] (linkLines ls) } ∧
    (mkEvent t sd ed (collectBody ls)).description =
      stripChars (joinWithNewline (descLinesOf ls)) := by
  have hne : ∀ x ∈ descLinesOf ls, x ≠ [] := by
    intro x hx
    rcases List.mem_filter.mp hx with ⟨_, hcond⟩
    simp only [Bool.and_eq_true] at hcond
    intro hx0
    rw [hx0] at hcond
    simp at hcond
  have h1 : collectBody ls =
      { tags := (tagLinesOf ls).flatMap parse_tags,
        description := joinWithNewline (descLinesOf ls),
        link := lastOr [] (linkLines ls) } := by
    unfold collectBody
    rw [collect_foldl ls ⟨[], [], []⟩]
    simp only [List.nil_append]
    rw [pyJoinDesc_nil_eq_join (descLinesOf ls) hne]
  refine ⟨h1, ?_⟩
  rw [show (mkEvent t sd ed (collectBody ls)).description =
    stripChars (collectBody ls).description from rfl, h1]

theorem dropWhile_eq_nil_of_all {p : α → Bool} :
    ∀ l : List α, (∀ x ∈ l, p x = true) → l.dropWhile p = [] := by
  intro l h
  induction l with
  | nil => rfl
  | cons x xs ih =>
    rw [List.dropWhile_cons_of_pos (h x (List.mem_cons_self x xs))]
    exact ih (fun y hy => h y (List.mem_cons_of_mem x hy))

/-- C6 counterexample: in the document `## A` then `## B`, the final heading
`## B` is followed by nothing, yet the run fails (with a date-format error
on the line `## B`, consumed as the date line of `## A`) instead of quietly
dropping the heading. -/
theorem dangling_heading_claim_false :
    parse_markdown [pyStr ("## A"), pyStr ("## B")] = none := by decide

/-- C6 (amended): whenever the extractor reaches the final heading while
seeking a heading — in particular when all preceding lines are non-heading
lines — and only blank lines (or nothing) follow it, extraction stops, the
pending heading is discarded, no event is produced for it, and no error is
raised. -/
theorem parse_markdown_dangling (pre : List (List Char)) (hl : List Char)
    (bs : List (List Char)) (hpre : ∀ x ∈ pre, is_heading x = false)
    (hh : is_heading hl = true) (hbs : ∀ b ∈ bs, isBlankLine b = true) :
    parse_markdown (pre ++ hl :: bs) = some [] := by
  induction pre with
  | nil =>
    rw [List.nil_append, parse_markdown_cons, if_pos hh,
      dropWhile_eq_nil_of_all bs hbs]
  | cons x xs ih =>
    rw [List.cons_append, parse_markdown_cons,
      if_neg (by simp [hpre x (List.mem_cons_self x xs)])]
    exact ih (fun y hy => hpre y (List.mem_cons_of_mem x hy))

theorem parse_markdown_dangling_witness :
    parse_markdown [pyStr ("intro text"), pyStr ("# End"), pyStr ("  ")] =
      some [] :=
  parse_markdown_dangling [pyStr ("intro text")] (pyStr ("# End"))
    [pyStr ("  ")] (by decide) (by decide) (by decide)

theorem splitOnChar_ne_nil (c : Char) : ∀ l, splitOnChar c l ≠ [] := by
  intro l
  cases l with
  | nil => simp [splitOnChar]
  | cons x xs =>
    simp only [splitOnChar]
    rcases splitOnChar c xs with _ | ⟨p, ps⟩
    · simp
    · dsimp only
      by_cases hx : x = c
      · rw [if_pos hx]
        simp
      · rw [if_neg hx]
        simp

theorem unsplit_splitOnChar (c : Char) : ∀ l, unsplitChar c (splitOnChar c l) = l := by
  intro l
  induction l with
  | nil => rfl
  | cons x xs ih =>
    simp only [splitOnChar]
    rcases hps : splitOnChar c xs with _ | ⟨p, ps⟩
    · exact absurd hps (splitOnChar_ne_nil c xs)
    · rw [hps] at ih
      dsimp only
      by_cases hx : x = c
      · rw [if_pos hx, hx]
        show c :: unsplitChar c (p :: ps) = c :: xs
        rw [ih]
      · rw [if_neg hx]
        rcases ps with _ | ⟨q, qs⟩
        · show x :: p = x :: xs
          rw [show unsplitChar c [p] = p from rfl] at ih
          rw [ih]
        · show (x :: p) ++ c :: unsplitChar c (q :: qs) = x :: xs
          rw [show unsplitChar c (p :: q :: qs) =
            p ++ c :: unsplitChar c (q :: qs) from rfl] at ih
          rw [List.cons_append, ih]

theorem splitOnChar_no_sep (c : Char) :
    ∀ l p, p ∈ splitOnChar c l → c ∉ p := by
  intro l
  induction l with
  | nil =>
    intro p hp
    simp [splitOnChar] at hp
    rw [hp]
    simp
  | cons x xs ih =>
    intro p hp
    simp only [splitOnChar] at hp
    rcases hps : splitOnChar c xs with _ | ⟨q, qs⟩
    · exact absurd hps (splitOnChar_ne_nil c xs)
    · rw [hps] at hp
      dsimp only at hp
      by_cases hx : x = c
      · rw [if_pos hx] at hp
        rcases List.mem_cons.mp hp with h1 | h1
        · rw [h1]
          simp
        · exact ih p (hps ▸ h1)
      · rw [if_neg hx] at hp
        rcases List.mem_cons.mp hp with h1 | h1
        · rw [h1]
          intro hc
          rcases List.mem_cons.mp hc with h2 | h2
          · exact hx h2.symm
          · exact ih q (hps ▸ List.mem_cons_self q qs) h2
        · exact ih p (hps ▸ List.mem_cons_of_mem q h1)

theorem splitOnChar_of_not_mem (c : Char) :
    ∀ a, c ∉ a → splitOnChar c a = [a] := by
  intro a
  induction a with
  | nil => intro _; rfl
  | cons x xs ih =>
    intro h
    have hx : ¬ x = c := fun he => h (he ▸ List.mem_cons_self x xs)
    have hxs : c ∉ xs := fun hc => h (List.mem_cons_of_mem x hc)
    simp only [splitOnChar, ih hxs]
    rw [if_neg hx]

theorem splitOnChar_append_sep (c : Char) :
    ∀ a rest, c ∉ a → splitOnChar c (a ++ c :: rest) = a :: splitOnChar c rest := by
  intro a
  induction a with
  | nil =>
    intro rest _
    simp only [List.nil_append, splitOnChar]
    rcases hps : splitOnChar c rest with _ | ⟨p, ps⟩
    · exact absurd hps (splitOnChar_ne_nil c rest)
    · simp
  | cons x xs ih =>
    intro rest h
    have hx : ¬ x = c := fun he => h (he ▸ List.mem_cons_self x xs)
    have hxs : c ∉ xs := fun hc => h (List.mem_cons_of_mem x hc)
    rw [List.cons_append]
    simp only [splitOnChar, ih rest hxs]
    rw [if_neg hx]

theorem splitOnChar_head (c : Char) :
    ∀ l, ∃ ps, splitOnChar c l = l.takeWhile (fun x => x != c) :: ps := by
  intro l
  induction l with
  | nil => exact ⟨[], rfl⟩
  | cons x xs ih =>
    obtain ⟨ps, hps⟩ := ih
    simp only [splitOnChar, hps]
    by_cases hx : x = c
    · rw [if_pos hx]
      refine ⟨xs.takeWhile (fun y => y != c) :: ps, ?_⟩
      rw [List.takeWhile_cons_of_neg]
      simp [hx]
    · rw [if_neg hx]
      refine ⟨ps, ?_⟩
      rw [List.takeWhile_cons_of_pos]
      simp [hx]

theorem splitOnChar_first (c : Char) :
    ∀ l, c ∈ l →
      splitOnChar c l =
        l.takeWhile (fun x => x != c) ::
          splitOnChar c ((l.dropWhile (fun x => x != c)).tail) := by
  intro l
  induction l with
  | nil =>
    intro h
    simp at h
  | cons x xs ih =>
    intro h
    by_cases hx : x = c
    · rw [List.takeWhile_cons_of_neg (by simp [hx]),
        List.dropWhile_cons_of_neg (by simp [hx])]
      simp only [List.tail_cons, splitOnChar]
      rcases hps : splitOnChar c xs with _ | ⟨p, ps⟩
      · exact absurd hps (splitOnChar_ne_nil c xs)
      · dsimp only
        rw [if_pos hx]
    · have hc : c ∈ xs := by
        rcases List.mem_cons.mp h with h1 | h1
        · exact absurd h1.symm hx
        · exact h1
      rw [List.takeWhile_cons_of_pos (by simp [hx]),
        List.dropWhile_cons_of_pos (by simp [hx])]
      simp only [splitOnChar, ih hc]
      rw [if_neg hx]

theorem strptimeDMY_isSome_iff (s : List Char) :
    (strptimeDMY s).isSome = true ↔ flexibleDMY s := by
  constructor
  · intro h
    unfold strptimeDMY at h
    rcases hsp : splitOnChar '.' s with _ | ⟨d, _ | ⟨m, _ | ⟨y, _ | ⟨z, zs⟩⟩⟩⟩ <;>
      rw [hsp] at h <;> dsimp only at h
    · simp at h
    · simp at h
    · simp at h
    · by_cases hA : (matchDay d && matchMonth m && matchYear y) = true
      · rw [if_pos hA] at h
        by_cases hB : (1 ≤ digitsVal y && digitsVal d ≤
            daysInMonth (digitsVal y) (digitsVal m)) = true
        · have hs : s = d ++ '.' :: (m ++ '.' :: y) := by
            have h1 := unsplit_splitOnChar '.' s
            rw [hsp] at h1
            rw [← h1]
            simp [unsplitChar]
          simp only [matchDay, matchMonth, matchYear, Bool.and_eq_true,
            List.all_eq_true, decide_eq_true_eq, Bool.or_eq_true] at hA
          simp only [Bool.and_eq_true, decide_eq_true_eq] at hB
          exact ⟨d, m, y, hs, hA.1.1.1.1.1, hA.1.2.1.1.1, hA.2.1,
            hA.1.1.1.1.2, hA.1.2.1.1.2, hA.2.2, hA.1.1.1.2, hA.1.1.2,
            hA.1.2.1.2, hA.1.2.2, hB.1, hB.2⟩
        · rw [if_neg hB] at h
          simp at h
      · rw [if_neg hA] at h
        simp at h
    · simp at h
  · rintro ⟨d, m, y, hs, hd, hm, hy, hdl, hml, hyl, hd1, hd31, hm1, hm12,
      hy1, hvd⟩
    have hd' : '.' ∉ d := fun hc => by
      have := hd '.' hc
      simp at this
    have hm' : '.' ∉ m := fun hc => by
      have := hm '.' hc
      simp at this
    have hy' : '.' ∉ y := fun hc => by
      have := hy '.' hc
      simp at this
    have hsp : splitOnChar '.' s = [d, m, y] := by
      rw [hs, splitOnChar_append_sep '.' d (m ++ '.' :: y) hd',
        splitOnChar_append_sep '.' m y hm', splitOnChar_of_not_mem '.' y hy']
    have hDay : matchDay d = true := by
      simp only [matchDay, Bool.and_eq_true, List.all_eq_true,
        decide_eq_true_eq, Bool.or_eq_true]
      exact ⟨⟨⟨hd, hdl⟩, hd1⟩, hd31⟩
    have hMonth : matchMonth m = true := by
      simp only [matchMonth, Bool.and_eq_true, List.all_eq_true,
        decide_eq_true_eq, Bool.or_eq_true]
      exact ⟨⟨⟨hm, hml⟩, hm1⟩, hm12⟩
    have hYear : matchYear y = true := by
      simp only [matchYear, Bool.and_eq_true, List.all_eq_true,
        decide_eq_true_eq]
      exact ⟨hy, hyl⟩
    unfold strptimeDMY
    rw [hsp]
    dsimp only
    rw [if_pos (by rw [hDay, hMonth, hYear]; rfl),
      if_pos (by simp only [Bool.and_eq_true, decide_eq_true_eq]; exact ⟨hy1, hvd⟩)]
    rfl

/-- C1 counterexample: the hyphen-free line `1.3.2024` does not match the
strict two-digit-day pattern of the claim, yet the Date Resolver accepts it
(Python's `strptime` `%d` accepts one digit), yielding 2024-03-01. -/
theorem parse_date_strict_claim_false :
    '-' ∉ stripChars (pyStr ("1.3.2024")) ∧
    strictDMY (stripChars (pyStr ("1.3.2024"))) = false ∧
    parse_date (pyStr ("1.3.2024")) = some (⟨2024, 3, 1⟩, none) := by
  refine ⟨by decide, by decide, by decide⟩

/-- C1 (amended): a hyphen-free input line is accepted by the Date Resolver
exactly when its trimmed form matches the flexible day.month.year pattern —
day and month of one or two digits (1..31 and 1..12), a four-digit year of
value at least one, and a day valid for that month — and an accepted line
yields `(date, none)`. -/
theorem parse_date_no_hyphen (s : List Char) (hn : '-' ∉ stripChars s) :
    ((parse_date s).isSome = true ↔ flexibleDMY (stripChars s)) ∧
    ∀ r ∈ parse_date s, r.2 = none := by
  have hpd : parse_date s =
      (match strptimeDMY (stripChars s) with
       | some d => some (d, none)
       | none => none) := by
    simp only [parse_date]
    rw [if_neg hn]
  constructor
  · have h2 : (parse_date s).isSome = (strptimeDMY (stripChars s)).isSome := by
      rw [hpd]
      rcases strptimeDMY (stripChars s) with _ | d <;> rfl
    rw [h2]
    exact strptimeDMY_isSome_iff (stripChars s)
  · intro r hr
    rw [hpd] at hr
    rcases hst : strptimeDMY (stripChars s) with _ | d <;> rw [hst] at hr
    · simp at hr
    · simp only [Option.mem_def, Option.some.injEq] at hr
      rw [← hr]

theorem parse_date_no_hyphen_witness :
    '-' ∉ stripChars (pyStr ("01.03.2024")) ∧
    ((parse_date (pyStr ("01.03.2024"))).isSome = true ↔
      flexibleDMY (stripChars (pyStr ("01.03.2024")))) :=
  ⟨by decide, (parse_date_no_hyphen (pyStr ("01.03.2024")) (by decide)).1⟩

/-- C2 counterexample: a line with text after a second hyphen does not
fail — the Date Resolver splits at every hyphen, so the second fragment
stops at the second hyphen and the trailing text is silently ignored. -/
theorem parse_date_second_hyphen_claim_false :
    parse_date (pyStr ("01.03.2024 - 03.03.2024 - note")) =
      some (⟨2024, 3, 1⟩, some ⟨2024, 3, 3⟩) := by decide

/-- C2 (amended): for a trimmed line containing a hyphen, the Date Resolver
splits at every hyphen and parses exactly the first two fragments (the text
before the first hyphen, and the text between the first and second hyphen
or the end of line), each trimmed; the call succeeds with `(start, end)`
exactly when both fragments parse, fails with no partial result otherwise,
and any text after the second hyphen is ignored. -/
theorem parse_date_hyphen_split (s : List Char) (hh : '-' ∈ stripChars s) :
    parse_date s =
      (match strptimeDMY (stripChars (firstHyphenFrag (stripChars s))),
             strptimeDMY (stripChars (secondHyphenFrag (stripChars s))) with
       | some d0, some d1 => some (d0, some d1)
       | _, _ => none) := by
  simp only [parse_date]
  rw [if_pos hh, splitOnChar_first '-' (stripChars s) hh]
  obtain ⟨ps, hps⟩ :=
    splitOnChar_head '-' (((stripChars s).dropWhile (fun c => c != '-')).tail)
  rw [hps]
  rfl

theorem parse_date_hyphen_split_witness :
    '-' ∈ stripChars (pyStr ("01.03.2024 - 03.03.2024 - note")) ∧
    parse_date (pyStr ("01.03.2024 - 03.03.2024 - note")) =
      (match strptimeDMY (stripChars (firstHyphenFrag
               (stripChars (pyStr ("01.03.2024 - 03.03.2024 - note"))))),
             strptimeDMY (stripChars (secondHyphenFrag
               (stripChars (pyStr ("01.03.2024 - 03.03.2024 - note"))))) with
       | some d0, some d1 => some (d0, some d1)
       | _, _ => none) :=
  ⟨by decide,
    parse_date_hyphen_split (pyStr ("01.03.2024 - 03.03.2024 - note"))
      (by decide)⟩

theorem mem_takeWhile {α : Type} {p : α → Bool} :
    ∀ (l : List α) (x : α), x ∈ l.takeWhile p → p x = true ∧ x ∈ l := by
  intro l
  induction l with
  | nil =>
    intro x hx
    simp at hx
  | cons y ys ih =>
    intro x hx
    by_cases hy : p y = true
    · rw [List.takeWhile_cons_of_pos hy] at hx
      rcases List.mem_cons.mp hx with h1 | h1
      · exact ⟨h1 ▸ hy, h1 ▸ List.mem_cons_self y ys⟩
      · exact ⟨(ih x h1).1, List.mem_cons_of_mem y (ih x h1).2⟩
    · rw [List.takeWhile_cons_of_neg hy] at hx
      simp at hx

theorem parse_tags_chars :
    ∀ n l, l.length ≤ n →
      ∀ t ∈ parse_tags l, t ≠ [] ∧ ∀ c ∈ t, isTagChar c = true := by
  intro n
  induction n with
  | zero =>
    intro l h t ht
    rcases l with _ | ⟨c, cs⟩
    · rw [show parse_tags [] = [] from rfl] at ht
      simp at ht
    · simp at h
  | succ n ih =>
    intro l h t ht
    rcases l with _ | ⟨c, cs⟩
    · rw [show parse_tags [] = [] from rfl] at ht
      simp at ht
    · simp only [List.length_cons, Nat.add_le_add_iff_right] at h
      rw [parse_tags_cons] at ht
      by_cases hc : c = '#'
      · rw [if_pos hc] at ht
        by_cases hr : (cs.takeWhile isTagChar).isEmpty = true
        · rw [if_pos hr] at ht
          exact ih cs h t ht
        · rw [if_neg hr] at ht
          rcases List.mem_cons.mp ht with h1 | h1
          · subst h1
            refine ⟨?_, fun ch hch => (mem_takeWhile cs ch hch).1⟩
            intro h0
            rw [h0] at hr
            simp at hr
          · refine ih (cs.drop (cs.takeWhile isTagChar).length) ?_ t h1
            rw [List.length_drop]
            omega
      · rw [if_neg hc] at ht
        exact ih cs h t ht

theorem parse_tags_good (l : List Char) :
    ∀ t ∈ parse_tags l, t ≠ [] ∧ ∀ c ∈ t, isTagChar c = true :=
  parse_tags_chars l.length l le_rfl

theorem tagChar_ne (c x : Char) (h : isTagChar c = true)
    (hx : isTagChar x = false) : c ≠ x := by
  intro he
  rw [he, hx] at h
  simp at h

theorem tagChar_not_space (c : Char) (h : isTagChar c = true) :
    isPySpace c = false := by
  rcases hs : isPySpace c with _ | _
  · rfl
  · exfalso
    simp only [isPySpace, Bool.or_eq_true, decide_eq_true_eq] at hs
    rcases hs with ((((h1 | h1) | h1) | h1) | h1) | h1 <;> rw [h1] at h <;>
      exact absurd h (by decide)

theorem replaceChar_id (c : Char) (r : List Char) :
    ∀ l, (∀ x ∈ l, x ≠ c) → replaceChar c r l = l := by
  intro l h
  induction l with
  | nil => rfl
  | cons x xs ih =>
    show (if x = c then r else [x]) ++ replaceChar c r xs = x :: xs
    rw [if_neg (h x (List.mem_cons_self x xs)),
      ih (fun y hy => h y (List.mem_cons_of_mem x hy))]
    rfl

theorem escape_html_tag_id (t : List Char)
    (h : ∀ c ∈ t, isTagChar c = true) : escape_html t = t := by
  unfold escape_html
  rw [replaceChar_id '&' _ t (fun x hx => tagChar_ne x '&' (h x hx) (by decide)),
    replaceChar_id '<' _ t (fun x hx => tagChar_ne x '<' (h x hx) (by decide)),
    replaceChar_id '>' _ t (fun x hx => tagChar_ne x '>' (h x hx) (by decide)),
    replaceChar_id '"' _ t (fun x hx => tagChar_ne x '"' (h x hx) (by decide)),
    replaceChar_id '\'' _ t (fun x hx => tagChar_ne x '\'' (h x hx) (by decide))]

theorem escape_ical_tag_id (t : List Char)
    (h : ∀ c ∈ t, isTagChar c = true) : escape_ical_text t = t := by
  unfold escape_ical_text
  rw [replaceChar_id '\\' _ t (fun x hx => tagChar_ne x '\\' (h x hx) (by decide)),
    replaceChar_id ',' _ t (fun x hx => tagChar_ne x ',' (h x hx) (by decide)),
    replaceChar_id ';' _ t (fun x hx => tagChar_ne x ';' (h x hx) (by decide)),
    replaceChar_id '\n' _ t (fun x hx => tagChar_ne x '\n' (h x hx) (by decide))]

theorem collectBody_tags (ls : List (List Char)) :
    (collectBody ls).tags = (tagLinesOf ls).flatMap parse_tags := by
  unfold collectBody
  rw [collect_foldl ls ⟨[], [], []⟩]
  simp

theorem parse_markdown_tags_aux :
    ∀ n ls evs, ls.length ≤ n → parse_markdown ls = some evs →
      ∀ e ∈ evs, ∀ t ∈ e.tags, t ≠ [] ∧ ∀ c ∈ t, isTagChar c = true := by
  intro n
  induction n with
  | zero =>
    intro ls evs h hp e he t ht
    rcases ls with _ | ⟨l, ls'⟩
    · rw [show parse_markdown [] = some [] from rfl] at hp
      simp only [Option.some.injEq] at hp
      rw [← hp] at he
      simp at he
    · simp at h
  | succ n ih =>
    intro ls evs h hp e he t ht
    rcases ls with _ | ⟨l, ls'⟩
    · rw [show parse_markdown [] = some [] from rfl] at hp
      simp only [Option.some.injEq] at hp
      rw [← hp] at he
      simp at he
    · simp only [List.length_cons, Nat.add_le_add_iff_right] at h
      rw [parse_markdown_cons] at hp
      by_cases hh : is_heading l = true
      · rw [if_pos hh] at hp
        rcases hdrop : ls'.dropWhile isBlankLine with _ | ⟨dl, ls2⟩ <;>
          rw [hdrop] at hp <;> dsimp only at hp
        · simp only [Option.some.injEq] at hp
          rw [← hp] at he
          simp at he
        · rcases hpd : parse_date dl with _ | ⟨sd, ed⟩ <;> rw [hpd] at hp <;>
            dsimp only at hp
          · simp at hp
          · rcases hrec : parse_markdown
                (ls2.dropWhile (fun x => !is_heading x)) with _ | evs' <;>
              rw [hrec] at hp <;> dsimp only at hp
            · simp at hp
            · simp only [Option.some.injEq] at hp
              rw [← hp] at he
              rcases List.mem_cons.mp he with h1 | h1
              · rw [h1] at ht
                have htags : e.tags = (tagLinesOf
                    ((ls2.takeWhile (fun x => !is_heading x)).map stripChars)).flatMap
                      parse_tags := by
                  rw [h1]
                  show (collectBody _).tags = _
                  rw [collectBody_tags]
                rw [h1] at htags
                rw [show (mkEvent (headingTitle l) sd ed
                    (collectBody ((ls2.takeWhile (fun x => !is_heading x)).map
                      stripChars))).tags =
                    (collectBody ((ls2.takeWhile (fun x => !is_heading x)).map
                      stripChars)).tags from rfl, collectBody_tags] at ht
                obtain ⟨line, _, htl⟩ := List.mem_flatMap.mp ht
                exact parse_tags_good line t htl
              · have h1len : ls2.length < ls'.length := by
                  have := length_dropWhile_le isBlankLine ls'
                  rw [hdrop] at this
                  simp only [List.length_cons] at this
                  omega
                have h2len : (ls2.dropWhile (fun x => !is_heading x)).length ≤
                    ls2.length := length_dropWhile_le _ ls2
                exact ih (ls2.dropWhile (fun x => !is_heading x)) evs'
                  (by omega) hrec e h1 t ht
      · rw [if_neg hh] at hp
        exact ih ls' evs h hp e he t ht

/-- C9: every tag of every extracted event is a nonempty string of tag
characters (ASCII letters, digits, hyphen, underscore); in particular it
contains no comma, no whitespace and no HTML special character, so
HTML-escaping (and iCal-escaping) is the identity on tags and the
comma-joined CATEGORIES and `data-tags` values are unambiguous. -/
theorem tags_wellformed (lines : List (List Char)) (evs : List Event)
    (hp : parse_markdown lines = some evs) (e : Event) (he : e ∈ evs)
    (t : List Char) (ht : t ∈ e.tags) :
    t ≠ [] ∧ (∀ c ∈ t, isTagChar c = true) ∧ ',' ∉ t ∧
    (∀ c ∈ t, isPySpace c = false) ∧ escape_html t = t ∧
    escape_ical_text t = t := by
  obtain ⟨h1, h2⟩ :=
    parse_markdown_tags_aux lines.length lines evs le_rfl hp e he t ht
  refine ⟨h1, h2, ?_, fun c hc => tagChar_not_space c (h2 c hc),
    escape_html_tag_id t h2, escape_ical_tag_id t h2⟩
  intro hcm
  exact absurd (h2 ',' hcm) (by decide)

theorem tags_wellformed_witness :
    (pyStr ("space") ≠ [] ∧
      (∀ c ∈ pyStr ("space"), isTagChar c = true) ∧ ',' ∉ pyStr ("space") ∧
      (∀ c ∈ pyStr ("space"), isPySpace c = false) ∧
      escape_html (pyStr ("space")) = pyStr ("space") ∧
      escape_ical_text (pyStr ("space")) = pyStr ("space")) :=
  tags_wellformed
    [pyStr ("# Launch"), pyStr ("01.03.2024"), pyStr ("Join us"),
      pyStr ("#space #rocket"), pyStr ("https://example.com")]
    [{ title := pyStr ("Launch"), start_date := ⟨2024, 3, 1⟩,
       end_date := none, description := pyStr ("Join us"),
       link := pyStr ("https://example.com"),
       tags := [pyStr ("space"), pyStr ("rocket")] }]
    (by decide)
    { title := pyStr ("Launch"), start_date := ⟨2024, 3, 1⟩,
      end_date := none, description := pyStr ("Join us"),
      link := pyStr ("https://example.com"),
      tags := [pyStr ("space"), pyStr ("rocket")] }
    (by decide) (pyStr ("space")) (by decide)

theorem takeWhile_all_eq {α : Type} {p : α → Bool} :
    ∀ l : List α, (∀ x ∈ l, p x = true) → l.takeWhile p = l := by
  intro l h
  induction l with
  | nil => rfl
  | cons x xs ih =>
    rw [List.takeWhile_cons_of_pos (h x (List.mem_cons_self x xs)),
      ih (fun y hy => h y (List.mem_cons_of_mem x hy))]

theorem takeWhile_append_all {α : Type} {p : α → Bool} :
    ∀ (A B : List α), (∀ x ∈ A, p x = true) →
      (A ++ B).takeWhile p = A ++ B.takeWhile p := by
  intro A
  induction A with
  | nil => intro B _; rfl
  | cons a A ih =>
    intro B h
    rw [List.cons_append,
      List.takeWhile_cons_of_pos (h a (List.mem_cons_self a A)),
      ih B (fun y hy => h y (List.mem_cons_of_mem a hy)), List.cons_append]

theorem dropWhile_head_false {α : Type} {p : α → Bool} :
    ∀ (l : List α) d l2, l.dropWhile p = d :: l2 → p d = false := by
  intro l
  induction l with
  | nil =>
    intro d l2 h
    simp at h
  | cons x xs ih =>
    intro d l2 h
    by_cases hx : p x = true
    · rw [List.dropWhile_cons_of_pos hx] at h
      exact ih d l2 h
    · rw [List.dropWhile_cons_of_neg hx] at h
      have hd : x = d := (List.cons.injEq x xs d l2 ▸ h).1
      rw [← hd]
      exact Bool.eq_false_iff.mpr hx

theorem dropWhile_nil_all {α : Type} {p : α → Bool} :
    ∀ l : List α, l.dropWhile p = [] → ∀ x ∈ l, p x = true := by
  intro l
  induction l with
  | nil =>
    intro _ x hx
    simp at hx
  | cons y ys ih =>
    intro h x hx
    by_cases hy : p y = true
    · rw [List.dropWhile_cons_of_pos hy] at h
      rcases List.mem_cons.mp hx with h1 | h1
      · exact h1 ▸ hy
      · exact ih h x h1
    · rw [List.dropWhile_cons_of_neg hy] at h
      simp at h

theorem dropWhile_append_last {α : Type} {p : α → Bool} :
    ∀ (A : List α) (c : α), p c = false →
      (A ++ [c]).dropWhile p = A.dropWhile p ++ [c] := by
  intro A c hc
  induction A with
  | nil =>
    rw [List.nil_append, List.dropWhile_cons_of_neg (by simp [hc])]
    rfl
  | cons a A ih =>
    by_cases ha : p a = true
    · rw [List.cons_append, List.dropWhile_cons_of_pos ha,
        List.dropWhile_cons_of_pos ha, ih]
    · rw [List.cons_append, List.dropWhile_cons_of_neg ha,
        List.dropWhile_cons_of_neg ha, List.cons_append]

theorem strip_cons_not_space (c : Char) (xs : List Char)
    (hc : isPySpace c = false) : ∃ r, stripChars (c :: xs) = c :: r := by
  unfold stripChars
  rw [List.dropWhile_cons_of_neg (by simp [hc]), List.reverse_cons,
    dropWhile_append_last xs.reverse c hc]
  exact ⟨(xs.reverse.dropWhile isPySpace).reverse, by simp⟩

theorem strptime_head_digit (t : List Char) (d : Date)
    (h : strptimeDMY t = some d) : ∃ c r, t = c :: r ∧ c.isDigit = true := by
  have hiff : (strptimeDMY t).isSome = true := by
    rw [h]
    rfl
  obtain ⟨dd, mm, yy, hs, hdigit, _, _, hdl, _, _, _, _, _, _, _, _⟩ :=
    (strptimeDMY_isSome_iff t).mp hiff
  rcases dd with _ | ⟨c, d2⟩
  · simp at hdl
  · exact ⟨c, d2 ++ '.' :: (mm ++ '.' :: yy), by rw [hs]; rfl,
      hdigit c (List.mem_cons_self c d2)⟩

theorem parse_success_not_heading (l : List Char) (r : Date × Option Date)
    (h : parse_date l = some r) : is_heading l = false := by
  rcases hs : stripChars l with _ | ⟨c, t'⟩
  · unfold is_heading
    rw [hs]
  · have hc : ¬ c = '#' := by
      intro he
      subst he
      simp only [parse_date] at h
      rw [hs] at h
      by_cases hm : '-' ∈ (('#' : Char) :: t')
      · rw [if_pos hm, splitOnChar_first '-' (('#' : Char) :: t') hm] at h
        obtain ⟨ps, hps⟩ := splitOnChar_head '-'
          (((('#' : Char) :: t').dropWhile (fun x => x != '-')).tail)
        rw [hps] at h
        dsimp only at h
        rw [List.takeWhile_cons_of_pos (by decide)] at h
        obtain ⟨r0, hr0⟩ := strip_cons_not_space '#'
          (t'.takeWhile (fun x => x != '-')) (by decide)
        rw [hr0] at h
        rcases hst : strptimeDMY ('#' :: r0) with _ | dd <;> rw [hst] at h
        · simp at h
        · obtain ⟨c2, r2, he2, hd2⟩ := strptime_head_digit _ dd hst
          injection he2 with hA _
          rw [← hA] at hd2
          exact absurd hd2 (by decide)
      · rw [if_neg hm] at h
        rcases hst : strptimeDMY (('#' : Char) :: t') with _ | dd <;>
          rw [hst] at h
        · simp at h
        · obtain ⟨c2, r2, he2, hd2⟩ := strptime_head_digit _ dd hst
          injection he2 with hA _
          rw [← hA] at hd2
          exact absurd hd2 (by decide)
    unfold is_heading
    rw [hs]
    simp [hc]

theorem blank_not_heading (l : List Char) (hb : isBlankLine l = true) :
    is_heading l = false := by
  have hnil : stripChars l = [] := by
    unfold isBlankLine at hb
    exact List.isEmpty_iff.mp hb
  unfold is_heading
  rw [hnil]

theorem countSpec_eq_length_titles :
    ∀ ls, countSpecHeadings ls = (titlesSpec ls).length := by
  intro ls
  induction ls with
  | nil => rfl
  | cons l ls ih =>
    simp only [countSpecHeadings, titlesSpec, List.length_append, ih]
    by_cases h : (is_heading l && hasDateBeforeNextHeading ls) = true
    · rw [if_pos h, if_pos h]
      rfl
    · rw [if_neg h, if_neg h]
      rfl

theorem titlesSpec_append_nonheading :
    ∀ pre rest : List (List Char), (∀ x ∈ pre, is_heading x = false) →
      titlesSpec (pre ++ rest) = titlesSpec rest := by
  intro pre
  induction pre with
  | nil => intro rest _; rfl
  | cons x xs ih =>
    intro rest h
    rw [List.cons_append]
    show (if is_heading x && hasDateBeforeNextHeading (xs ++ rest) then
        [headingTitle x] else []) ++ titlesSpec (xs ++ rest) = titlesSpec rest
    rw [h x (List.mem_cons_self x xs)]
    simp only [Bool.false_and, Bool.false_eq_true, if_false, List.nil_append]
    exact ih rest (fun y hy => h y (List.mem_cons_of_mem x hy))

theorem any_eq_false_of {α : Type} {p : α → Bool} :
    ∀ l : List α, (∀ x ∈ l, p x = false) → l.any p = false := by
  intro l h
  induction l with
  | nil => rfl
  | cons x xs ih =>
    rw [List.any_cons, h x (List.mem_cons_self x xs),
      ih (fun y hy => h y (List.mem_cons_of_mem x hy))]
    rfl

theorem any_eq_true_of {α : Type} {p : α → Bool} :
    ∀ l : List α, ∀ x ∈ l, p x = true → l.any p = true := by
  intro l
  induction l with
  | nil =>
    intro x hx
    simp at hx
  | cons y ys ih =>
    intro x hx hp
    rcases List.mem_cons.mp hx with h1 | h1
    · rw [List.any_cons, ← h1, hp]
      rfl
    · rw [List.any_cons, ih x h1 hp]
      simp

theorem parse_markdown_titles_aux :
    ∀ n ls evs, ls.length ≤ n → parse_markdown ls = some evs →
      evs.map (fun e => e.title) = titlesSpec ls := by
  intro n
  induction n with
  | zero =>
    intro ls evs h hp
    rcases ls with _ | ⟨l, ls'⟩
    · rw [show parse_markdown [] = some [] from rfl] at hp
      simp only [Option.some.injEq] at hp
      rw [← hp]
      rfl
    · simp at h
  | succ n ih =>
    intro ls evs h hp
    rcases ls with _ | ⟨l, ls'⟩
    · rw [show parse_markdown [] = some [] from rfl] at hp
      simp only [Option.some.injEq] at hp
      rw [← hp]
      rfl
    · simp only [List.length_cons, Nat.add_le_add_iff_right] at h
      rw [parse_markdown_cons] at hp
      by_cases hh : is_heading l = true
      · rw [if_pos hh] at hp
        rcases hdrop : ls'.dropWhile isBlankLine with _ | ⟨dl, ls2⟩ <;>
          rw [hdrop] at hp <;> dsimp only at hp
        · simp only [Option.some.injEq] at hp
          rw [← hp]
          have hall : ∀ x ∈ ls', isBlankLine x = true :=
            dropWhile_nil_all ls' hdrop
          have hnh : ∀ x ∈ ls', is_heading x = false := fun x hx =>
            blank_not_heading x (hall x hx)
          have hnd : hasDateBeforeNextHeading ls' = false := by
            unfold hasDateBeforeNextHeading
            rw [takeWhile_all_eq ls' (fun x hx => by rw [hnh x hx]; rfl)]
            refine any_eq_false_of ls' (fun x hx => ?_)
            rw [hall x hx]
            rfl
          have htl : titlesSpec ls' = [] := by
            have h0 := titlesSpec_append_nonheading ls' [] hnh
            rw [List.append_nil] at h0
            exact h0
          simp only [List.map_nil, titlesSpec, hnd, Bool.and_false,
            Bool.false_eq_true, if_false, List.nil_append, htl]
        · rcases hpd : parse_date dl with _ | ⟨sd, ed⟩ <;> rw [hpd] at hp <;>
            dsimp only at hp
          · simp at hp
          · rcases hrec : parse_markdown
                (ls2.dropWhile (fun x => !is_heading x)) with _ | evs' <;>
              rw [hrec] at hp <;> dsimp only at hp
            · simp at hp
            · simp only [Option.some.injEq] at hp
              rw [← hp]
              have hsplit : ls'.takeWhile isBlankLine ++ dl :: ls2 = ls' := by
                have h0 := List.takeWhile_append_dropWhile
                  (p := isBlankLine) (l := ls')
                rw [hdrop] at h0
                exact h0
              have hprenh : ∀ x ∈ ls'.takeWhile isBlankLine,
                  is_heading x = false := fun x hx =>
                blank_not_heading x (mem_takeWhile ls' x hx).1
              have hdlnb : isBlankLine dl = false :=
                dropWhile_head_false ls' dl ls2 hdrop
              have hdlnh : is_heading dl = false :=
                parse_success_not_heading dl (sd, ed) hpd
              have hcond : hasDateBeforeNextHeading ls' = true := by
                unfold hasDateBeforeNextHeading
                rw [← hsplit,
                  takeWhile_append_all _ _
                    (fun x hx => by rw [hprenh x hx]; rfl),
                  List.takeWhile_cons_of_pos (by rw [hdlnh]; rfl)]
                refine any_eq_true_of _ dl
                  (List.mem_append.mpr (Or.inr (List.mem_cons_self _ _))) ?_
                rw [hdlnb, hpd]
                rfl
              have htail : titlesSpec ls' =
                  titlesSpec (ls2.dropWhile (fun x => !is_heading x)) := by
                have h1 : titlesSpec ls' = titlesSpec ls2 := by
                  rw [← hsplit,
                    show ls'.takeWhile isBlankLine ++ dl :: ls2 =
                      (ls'.takeWhile isBlankLine ++ [dl]) ++ ls2 by simp]
                  refine titlesSpec_append_nonheading _ ls2 (fun x hx => ?_)
                  rcases List.mem_append.mp hx with h2 | h2
                  · exact hprenh x h2
                  · rw [List.mem_singleton.mp h2]
                    exact hdlnh
                have h2 := titlesSpec_append_nonheading
                  (ls2.takeWhile (fun x => !is_heading x))
                  (ls2.dropWhile (fun x => !is_heading x))
                  (fun x hx => by
                    have h3 := (mem_takeWhile ls2 x hx).1
                    simpa using h3)
                rw [List.takeWhile_append_dropWhile] at h2
                rw [h1, h2]
              have h1len : ls2.length < ls'.length := by
                have h0 := length_dropWhile_le isBlankLine ls'
                rw [hdrop] at h0
                simp only [List.length_cons] at h0
                omega
              have h2len : (ls2.dropWhile (fun x => !is_heading x)).length ≤
                  ls2.length := length_dropWhile_le _ ls2
              have hih := ih (ls2.dropWhile (fun x => !is_heading x)) evs'
                (by omega) hrec
              rw [List.map_cons]
              show headingTitle l :: evs'.map (fun e => e.title) =
                titlesSpec (l :: ls')
              simp only [titlesSpec, hh, hcond, Bool.and_self, if_true,
                List.singleton_append]
              rw [hih, htail]
      · rw [if_neg hh] at hp
        have hhf : is_heading l = false := Bool.eq_false_iff.mpr hh
        have htl : titlesSpec (l :: ls') = titlesSpec ls' := by
          simp only [titlesSpec, hhf, Bool.false_and, Bool.false_eq_true,
            if_false, List.nil_append]
        rw [htl]
        exact ih ls' evs h hp

/-- C3: when extraction completes without a date-parse failure, the events
are exactly one per heading line that is followed, before the next heading
line or the end of input, by a non-blank line that parses as a date; their
titles appear in the same relative order as their headings in the source,
and in particular the number of events equals the number of such
headings. -/
theorem parse_markdown_event_count (lines : List (List Char))
    (evs : List Event) (hp : parse_markdown lines = some evs) :
    evs.map (fun e => e.title) = titlesSpec lines ∧
    evs.length = countSpecHeadings lines := by
  have h1 := parse_markdown_titles_aux lines.length lines evs le_rfl hp
  refine ⟨h1, ?_⟩
  rw [countSpec_eq_length_titles, ← h1, List.length_map]

theorem parse_markdown_event_count_witness :
    (([{ title := pyStr ("A"), start_date := ⟨2024, 3, 2⟩, end_date := none,
         description := [], link := [], tags := [] },
       { title := pyStr ("B"), start_date := ⟨2024, 3, 1⟩, end_date := none,
         description := [], link := [], tags := [] }] : List Event).map
        (fun e => e.title) =
      titlesSpec [pyStr ("# A"), pyStr ("02.03.2024"), pyStr (""),
        pyStr ("# B"), pyStr ("01.03.2024")] ∧
     ([{ title := pyStr ("A"), start_date := ⟨2024, 3, 2⟩, end_date := none,
         description := [], link := [], tags := [] },
       { title := pyStr ("B"), start_date := ⟨2024, 3, 1⟩, end_date := none,
         description := [], link := [], tags := [] }] : List Event).length =
      countSpecHeadings [pyStr ("# A"), pyStr ("02.03.2024"), pyStr (""),
        pyStr ("# B"), pyStr ("01.03.2024")]) :=
  parse_markdown_event_count
    [pyStr ("# A"), pyStr ("02.03.2024"), pyStr (""), pyStr ("# B"),
      pyStr ("01.03.2024")]
    [{ title := pyStr ("A"), start_date := ⟨2024, 3, 2⟩, end_date := none,
       description := [], link := [], tags := [] },
     { title := pyStr ("B"), start_date := ⟨2024, 3, 1⟩, end_date := none,
       description := [], link := [], tags := [] }]
    (by decide)
